import Mathlib

/-!
Shallow embedding of the photon-generation core of the photon_simulator
package (src/photon_simulator/photon_models.py, src/photon_simulator/utils.py).

Modelling conventions:
* Real numbers of the Python/numpy code are rationals.  The floating-point
  power function `**` (used only by the power-law model, where its values
  are irrational in general) is an explicit function parameter `pw`.
* A pseudo-random stream is a function `ℕ → ℚ` together with an offset
  that advances by the number of values drawn, exactly in the order the
  code draws them.  `np.random.normal(loc=0, scale=s, size=n)` is modelled
  as `s` times `n` values of a standard-normal stream.
* Fallible numpy/Python operations are modelled with `Except String`:
  `len()` of a 0-d scalar (TypeError), indexing a 2-tuple out of range
  (IndexError), broadcasting mismatched shapes (ValueError), reading an
  unbound local (NameError), and the explicit RuntimeErrors of the code.
* yt unit handling (needed by `LineEmissionModel.__init__` and
  `concatenate_photons`) is modelled by dimensions only: `in_units`
  between quantities of the same dimension keeps the value (conversion
  factors are abstracted to 1), and fails with YTUnitConversionError
  across dimensions, which is all the control flow of the code observes.
* numpy in-place operators (`+=`, `*=`) on an array alias mutate the
  aliased array; this is modelled by threading the mutated array through
  the loops as explicit state.
-/

namespace PhotonSim

/-- Conversion of a float to an integer truncates toward zero, as numpy
does; on a rational, integer T-division of the numerator by the
denominator truncates toward zero. -/
def npTrunc (x : ℚ) : ℤ := x.num.tdiv (x.den : ℤ)

/-- `np.modf x` returns `(fractional part, integral part)`, both carrying
the sign of `x`. -/
def npModf (x : ℚ) : ℚ × ℚ := (x - (npTrunc x : ℚ), (npTrunc x : ℚ))

/-- The per-cell photon-count sampler shared by all three models
(photon_models.py lines 199-200, 333-335, 433-435):
`norm = np.modf(lam)` followed by
`n = np.uint64(norm[1]) + np.uint64(norm[0] >= u)`.
`np.uint64` of the (nonnegative) integral part is its value, and the cast
of the comparison contributes 1 exactly when the fractional part is `>=`
the uniform draw. -/
def sampleCount (lam u : ℚ) : ℕ :=
  (npTrunc lam).toNat + (if (npModf lam).1 ≥ u then 1 else 0)

/-- `k` consecutive values of the pseudo-random stream `f`, starting at
offset `off` (models one `prng.uniform(size=k)` call). -/
def draws (f : ℕ → ℚ) (off k : ℕ) : List ℚ :=
  (List.range k).map (fun i => f (off + i))

/-- `np.cumsum`. -/
def cumsum (xs : List ℚ) : List ℚ := (xs.scanl (· + ·) 0).tail

/-- Last element of an array (`a[-1]`), with a default for the empty case. -/
def lastD (xs : List ℚ) (d : ℚ) : ℚ := xs.getLast?.getD d

/-- Sort an array of rationals ascending (`ndarray.sort`). -/
def sortQ (xs : List ℚ) : List ℚ := xs.insertionSort (· ≤ ·)

/-- Slice assignment `buf[s:s+len(vals)] = vals` (exact-length case; the
power-law model additionally needs the fallible broadcasting form,
`sliceAssign` below). -/
def setSlice (buf : List ℚ) (s : ℕ) (vals : List ℚ) : List ℚ :=
  buf.take s ++ vals ++ buf.drop (s + vals.length)

/-- `np.interp` for one point against the node list `xp.zip fp`
(piecewise-linear, clipped to the end values). -/
def npInterp1 (x : ℚ) : List (ℚ × ℚ) → ℚ
  | [] => 0
  | [(_, f0)] => f0
  | (x0, f0) :: (x1, f1) :: rest =>
    if x ≤ x0 then f0
    else if x ≤ x1 then
      (if x1 = x0 then f1 else f0 + (x - x0) * (f1 - f0) / (x1 - x0))
    else npInterp1 x ((x1, f1) :: rest)

/-- `np.interp(xs, xp, fp)`. -/
def npInterp (xs xp fp : List ℚ) : List ℚ :=
  xs.map (fun x => npInterp1 x (xp.zip fp))

/-- `np.random.choice(len p, p=p)` for a single uniform draw `u`:
the categorical index whose cumulative probability interval contains
`u`. -/
def npChoice : List ℚ → ℚ → ℕ
  | [], _ => 0
  | p :: rest, u => if u < p then 0 else npChoice rest (u - p) + 1

/-- Elementwise product with numpy broadcasting between two 1-d arrays:
equal lengths, or either side of length 1; anything else is a
ValueError. -/
def npBroadcastMul (xs ys : List ℚ) : Except String (List ℚ) :=
  if xs.length = ys.length then .ok (List.zipWith (· * ·) xs ys)
  else if xs.length = 1 then .ok (ys.map (fun y => xs.headD 0 * y))
  else if ys.length = 1 then .ok (xs.map (fun x => x * ys.headD 0))
  else .error "ValueError: operands could not be broadcast together"

/-- Slice assignment `buf[s:s+cn] = vals` with numpy broadcasting on the
right-hand side: `vals` must have length `cn` or length 1. -/
def sliceAssign (buf : List ℚ) (s cn : ℕ) (vals : List ℚ) :
    Except String (List ℚ) :=
  if vals.length = cn then .ok (setSlice buf s vals)
  else if vals.length = 1 then
    .ok (setSlice buf s (List.replicate cn (vals.headD 0)))
  else .error "ValueError: could not broadcast input array into slice"

/-- In-place slice addition `buf[s:s+len(vals)] += vals`. -/
def addSlice (buf : List ℚ) (s : ℕ) (vals : List ℚ) : List ℚ :=
  buf.take s ++ List.zipWith (· + ·) ((buf.drop s).take vals.length) vals
    ++ buf.drop (s + vals.length)

/-- Whether an `Except` is the error case. -/
def isErr {ε α : Type} : Except ε α → Bool
  | .error _ => true
  | .ok _ => false

/-! ### concatenate_photons (photon_models.py lines 42-56) -/

/-- A value stored in the photon table: a yt array with an attached unit
string, or a plain (unit-less) numpy array. -/
inductive PField where
  | yt (data : List ℚ) (unit : String)
  | np (data : List ℚ)
deriving DecidableEq, Repr

/-- The raw data of a field value. -/
def PField.dat : PField → List ℚ
  | .yt d _ => d
  | .np d => d

/-- Whether a field value carries a physical unit. -/
def PField.hasUnit : PField → Bool
  | .yt _ _ => true
  | .np _ => false

/-- The `photon_units` table (photon_models.py lines 42-46), as a partial
map; `photon_units[key]` on a key outside the table is a KeyError. -/
def photonUnits (key : String) : Option String :=
  if key = "Energy" then some "keV"
  else if key = "dx" ∨ key = "x" ∨ key = "y" ∨ key = "z" then some "kpc"
  else if key = "vx" ∨ key = "vy" ∨ key = "vz" then some "km/s"
  else none

/-- `uconcatenate` over a nonempty list of appended arrays: the data are
concatenated and the result carries the unit of the appended arrays (the
call sites always append arrays of one unit per key). -/
def uconcatenate (l : List PField) : PField :=
  match l with
  | [] => .np []
  | .yt _ u :: _ => .yt (l.map PField.dat).flatten u
  | .np _ :: _ => .np (l.map PField.dat).flatten

/-- The body of the `for key in photons` loop of `concatenate_photons`
(photon_models.py lines 50-56) for one key. -/
def concatEntry (key : String) (l : List PField) : Except String PField :=
  if 0 < l.length then .ok (uconcatenate l)
  else if key = "NumberOfPhotons" then .ok (.np [])
  else
    match photonUnits key with
    | some u => .ok (.yt [] u)
    | none => .error "KeyError"

/-- `concatenate_photons` (photon_models.py lines 49-56): each key of the
table is replaced by the concatenation of its appended arrays, an empty
key becoming a zero-length array as lines 53-56 prescribe; a KeyError
from `photon_units` aborts the loop. -/
def concatenate_photons : List (String × List PField) →
    Except String (List (String × PField))
  | [] => .ok []
  | (k, l) :: rest =>
    match concatEntry k l with
    | .error e => .error e
    | .ok f =>
      match concatenate_photons rest with
      | .error e => .error e
      | .ok out => .ok ((k, f) :: out)

/-! ### parse_value (utils.py lines 15-21) and LineEmissionModel.__init__
(photon_models.py lines 396-414) -/

/-- The unit dimension of a quantity, which is all the constructor logic
observes. -/
inductive Dim where
  | energy
  | velocity
  | dimensionless
  | other
deriving DecidableEq, Repr

/-- A YTQuantity: a value with a unit dimension (unit conversion factors
inside one dimension are abstracted to 1). -/
structure YTQ where
  val : ℚ
  dim : Dim
deriving DecidableEq, Repr

/-- `YTQuantity.in_units`: succeeds within one dimension, raises
YTUnitConversionError across dimensions. -/
def inUnits (q : YTQ) (target : Dim) : Except String YTQ :=
  if q.dim = target then .ok q else .error "YTUnitConversionError"

/-- The kinds of Python value given for a constant `sigma`: a YTQuantity,
a `(value, unit)` tuple, or a bare float (which `parse_value` stamps with
the default unit). -/
inductive PyVal where
  | quant (q : YTQ)
  | tup (v : ℚ) (d : Dim)
  | flt (v : ℚ)
deriving DecidableEq, Repr

/-- `parse_value` (utils.py lines 15-21), with the default unit given by
its dimension. -/
def parse_value (value : PyVal) (defaultDim : Dim) : Except String YTQ :=
  match value with
  | .quant q => inUnits q defaultDim
  | .tup v d => inUnits ⟨v, d⟩ defaultDim
  | .flt v => .ok ⟨v, defaultDim⟩

/-- The `sigma` argument of `LineEmissionModel.__init__`: `None`, a field
name, or a constant (float / YTQuantity / tuple — the guard of line
398). -/
inductive SigmaArg where
  | noneArg
  | fieldName (s : String)
  | val (v : PyVal)
deriving DecidableEq, Repr

/-- The stored `self.sigma` after construction. -/
inductive LSigma where
  | noSigma
  | constSigma (s : YTQ)
  | fieldSigma (s : String)
deriving DecidableEq, Repr

/-- `LineEmissionModel.__init__` (photon_models.py lines 396-414) for the
`sigma` argument.  `cl` is the speed of light in the velocity unit;
multiplying a velocity sigma by `location/clight` and converting to keV
yields an energy-dimension quantity of value `s.val * location.val / cl`.
A constant sigma convertible to neither keV nor km/s raises the
RuntimeError of lines 408-409 in the constructor. -/
def lineInit (cl : ℚ) (location : YTQ) (sigma : SigmaArg) :
    Except String LSigma :=
  match sigma with
  | .noneArg => .ok .noSigma
  | .fieldName s => .ok (.fieldSigma s)
  | .val v =>
    match parse_value v Dim.energy with
    | .ok q => .ok (.constSigma q)
    | .error _ =>
      match parse_value v Dim.velocity with
      | .ok q => .ok (.constSigma ⟨q.val * location.val / cl, Dim.energy⟩)
      | .error _ =>
        .error "RuntimeError: Units for sigma must either be in dimensions of energy or velocity"

/-! ### LineEmissionModel.__call__ (photon_models.py lines 416-469) -/

/-- One cell of a chunk seen by the line model: the amplitude field, the
cell volume, and the value of the per-cell broadening field (used only
when `sigma` names a field). -/
structure LCell where
  ampl : ℚ
  vol : ℚ
  sigmaf : ℚ
deriving DecidableEq, Repr

/-- Scalar parameters of a line-model generation pass: the line location
(keV value), redshift, `dist_fac`, exposure time, and area. -/
structure LineParams where
  loc : ℚ
  z : ℚ
  distFac : ℚ
  expT : ℚ
  area : ℚ
deriving DecidableEq, Repr

/-- The per-active-cell Gaussian-broadening loop (photon_models.py lines
444-451): `energies[start_e:end_e] += normal(scale=sigma_i, size=n_i) *
location.uq`.  State: energy buffer, `start_e`, offset into the
standard-normal stream. -/
def lineFieldLoop (normals : ℕ → ℚ) :
    List (ℕ × ℚ) → List ℚ → ℕ → ℕ → (List ℚ × ℕ)
  | [], buf, _, noff => (buf, noff)
  | (cn, sf) :: rest, buf, s, noff =>
    if cn = 0 then lineFieldLoop normals rest buf s noff
    else
      let dE := (draws normals noff cn).map (fun g => sf * g)
      lineFieldLoop normals rest (addSlice buf s dE) (s + cn) (noff + cn)

/-- One chunk of `LineEmissionModel.__call__` (photon_models.py lines
429-465): per-cell expected counts `F = amplitude * volume * dist_fac *
exp_time * area`, stochastic rounding, a constant energy array at the
line location, optional Gaussian broadening, redshift division, and the
per-chunk appends (`NumberOfPhotons` over active cells, the full energy
array).  Returns those two arrays and the advanced stream offsets. -/
def lineChunk (P : LineParams) (sigma : LSigma) (prng normals : ℕ → ℚ)
    (off noff : ℕ) (cells : List LCell) :
    List ℕ × List ℚ × ℕ × ℕ :=
  let numCells := cells.length
  let F := cells.map (fun c => c.ampl * c.vol * P.distFac * P.expT * P.area)
  let u := draws prng off numCells
  let nop := List.zipWith sampleCount F u
  let total := nop.sum
  let energies0 := List.replicate total P.loc
  let r : List ℚ × ℕ :=
    match sigma with
    | .constSigma s =>
      (List.zipWith (fun e g => e + s.val * g) energies0 (draws normals noff total),
        noff + total)
    | .fieldSigma _ =>
      lineFieldLoop normals (List.zip nop (cells.map LCell.sigmaf)) energies0 0 noff
    | .noSigma => (energies0, noff)
  let energies := r.1.map (fun e => e / (1 + P.z))
  (nop.filter (fun n => 0 < n), energies, off + numCells, r.2)

/-- The chunk loop of `LineEmissionModel.__call__` followed by
`concatenate_photons`: partial `NumberOfPhotons` and `Energy` arrays are
appended per chunk and concatenated at the end. -/
def lineCallGo (P : LineParams) (sigma : LSigma) (prng normals : ℕ → ℚ) :
    List (List LCell) → ℕ → ℕ → List ℕ → List ℚ → List ℕ × List ℚ
  | [], _, _, an, ae => (an, ae)
  | c :: rest, off, noff, an, ae =>
    let r := lineChunk P sigma prng normals off noff c
    lineCallGo P sigma prng normals rest r.2.2.1 r.2.2.2 (an ++ r.1) (ae ++ r.2.1)

/-- `LineEmissionModel.__call__` over a list of chunks, returning the
concatenated `NumberOfPhotons` and `Energy` fields of the photon
table. -/
def lineCall (P : LineParams) (sigma : LSigma) (prng normals : ℕ → ℚ)
    (chunks : List (List LCell)) : List ℕ × List ℚ :=
  lineCallGo P sigma prng normals chunks 0 0 [] []

/-! ### PowerLawModel.__call__ (photon_models.py lines 311-363) -/

/-- One cell of a chunk seen by the power-law model: the value of the
per-cell index field and of the normalization field. -/
structure PLCell where
  idxf : ℚ
  normf : ℚ
deriving DecidableEq, Repr

/-- `self.index`: a global float or the name of a per-cell field. -/
inductive PLIndex where
  | scalar (a : ℚ)
  | field (name : String)
deriving DecidableEq, Repr

/-- Scalar parameters of a power-law generation pass. -/
structure PLParams where
  e0 : ℚ
  emin : ℚ
  emax : ℚ
  expT : ℚ
  area : ℚ
  distFac : ℚ
deriving DecidableEq, Repr

/-- The per-cell energy loop of `PowerLawModel.__call__` (photon_models.py
lines 339-347), over `nop.enum` (the pairs `(i, number_of_photons[i])`).
After line 333 rebound `norm` to the pair `np.modf(...)`, line 344 reads
`norm[i]`: component 0 is the array of fractional parts, component 1 the
array of integral parts, and any `i >= 2` is an IndexError on the
2-tuple.  The slice assignment of line 346 broadcasts the right-hand
side.  State: energy buffer, `start_e`, the (initially unbound) local
`end_e`, stream offset. -/
def plLoop (pw : ℚ → ℚ → ℚ) (emin : ℚ) (prng : ℕ → ℚ)
    (idxs fracs ints : List ℚ) :
    List (ℕ × ℕ) → List ℚ → ℕ → Option ℕ → ℕ →
    Except String (List ℚ × ℕ × Option ℕ × ℕ)
  | [], buf, s, ee, off => .ok (buf, s, ee, off)
  | (i, cn) :: rest, buf, s, ee, off =>
    if cn = 0 then plLoop pw emin prng idxs fracs ints rest buf s ee off
    else
      match (if i = 0 then Except.ok fracs
        else if i = 1 then Except.ok ints
        else Except.error "IndexError: tuple index out of range" :
          Except String (List ℚ)) with
      | .error e => .error e
      | .ok normI =>
        match npBroadcastMul (draws prng off cn) normI with
        | .error e => .error e
        | .ok e1 =>
          let ai := idxs.getD i 0
          let e2 := e1.map (fun x => pw (pw emin (1 - ai) + x) (1 / (1 - ai)))
          match sliceAssign buf s cn e2 with
          | .error e => .error e
          | .ok buf2 =>
            plLoop pw emin prng idxs fracs ints rest buf2 (s + cn)
              (some (s + cn)) (off + cn)

/-- One chunk of `PowerLawModel.__call__` (photon_models.py lines
324-359).  With a global float index, `norm_fac` is a 0-d scalar and
`num_cells = len(norm_fac)` (line 330) raises.  With a per-cell field:
`norm_fac = (emax**(1-index) - emin**(1-index)) * dist_fac`, `norm =
exp_time*area*norm_fac*chunk[norm_field]*e0**index/(1-index)` rebound by
`np.modf` to the (fractional, integral) pair, stochastic rounding, the
energy loop, and `Energy = energies[:end_e]` — a NameError when no
earlier iteration ever bound `end_e` (`ee` carries the binding across
chunks). -/
def powerLawChunk (pw : ℚ → ℚ → ℚ) (P : PLParams) (idx : PLIndex)
    (prng : ℕ → ℚ) (off : ℕ) (ee : Option ℕ) (cells : List PLCell) :
    Except String (List ℕ × List ℚ × ℕ × Option ℕ) :=
  match idx with
  | .scalar _ => .error "TypeError: len() of unsized object"
  | .field _ =>
    let idxs := cells.map PLCell.idxf
    let normFac :=
      idxs.map (fun a => (pw P.emax (1 - a) - pw P.emin (1 - a)) * P.distFac)
    let numCells := normFac.length
    let norm0 := List.zipWith
      (fun nf c => P.expT * P.area * nf * c.normf * pw P.e0 c.idxf / (1 - c.idxf))
      normFac cells
    let fracs := norm0.map (fun x => (npModf x).1)
    let ints := norm0.map (fun x => (npModf x).2)
    let u := draws prng off numCells
    let nop := List.zipWith sampleCount norm0 u
    let total := nop.sum
    let buf0 := List.replicate total (0 : ℚ)
    match plLoop pw P.emin prng idxs fracs ints nop.enum buf0 0 ee (off + numCells) with
    | .error e => .error e
    | .ok (buf, _, ee2, off2) =>
      match ee2 with
      | none => .error "NameError: name end_e is not defined"
      | some t => .ok (nop.filter (fun n => 0 < n), buf.take t, off2, some t)

/-- The chunk loop of `PowerLawModel.__call__` followed by
`concatenate_photons`. -/
def plCallGo (pw : ℚ → ℚ → ℚ) (P : PLParams) (idx : PLIndex) (prng : ℕ → ℚ) :
    List (List PLCell) → ℕ → Option ℕ → List ℕ → List ℚ →
    Except String (List ℕ × List ℚ)
  | [], _, _, an, ae => .ok (an, ae)
  | c :: rest, off, ee, an, ae =>
    match powerLawChunk pw P idx prng off ee c with
    | .error e => .error e
    | .ok (nop, en, off2, ee2) =>
      plCallGo pw P idx prng rest off2 ee2 (an ++ nop) (ae ++ en)

/-- `PowerLawModel.__call__` over a list of chunks, returning the
concatenated `NumberOfPhotons` and `Energy` fields of the photon table,
or the first raised error. -/
def powerLawCall (pw : ℚ → ℚ → ℚ) (P : PLParams) (idx : PLIndex)
    (prng : ℕ → ℚ) (chunks : List (List PLCell)) :
    Except String (List ℕ × List ℚ) :=
  plCallGo pw P idx prng chunks 0 none [] []

/-- One cell of a thermal bin: its `cell_em` entry and metallicity. -/
structure TCell where
  cem : ℚ
  Z : ℚ
deriving DecidableEq, Repr

/-- One temperature bin of a chunk: the cosmic and metal spectra of the
bin temperature and the bin's cells. -/
structure TBin where
  cspec : List ℚ
  mspec : List ℚ
  cells : List TCell
deriving DecidableEq, Repr

/-- The two energy-sampling methods of the thermal model. -/
inductive Method where
  | invertCdf
  | acceptReject
deriving DecidableEq, Repr

/-- Fixed parameters of a thermal generation pass: `photons_per_chunk`
and the spectral grid (bin edges and midpoints). -/
structure TParams where
  cap : ℕ
  ebins : List ℚ
  emid : List ℚ
deriving DecidableEq, Repr

/-- Lines 192-200: per-cell expected counts of one bin,
`tot_ph_c*cem + tot_ph_m*Z*cem`, stochastically rounded against the
uniforms `u = prng.uniform(size=n_current)` drawn at offset `off`. -/
def thermalBinCounts (prng : ℕ → ℚ) (off : ℕ) (b : TBin) : List ℕ :=
  (b.cells.enum).map (fun ic =>
    sampleCount (b.cspec.sum * ic.2.cem + b.mspec.sum * ic.2.Z * ic.2.cem)
      (prng (off + ic.1)))

/-- The in-place CDF update of the invert_cdf branch (lines 226-230):
`cumspec = cumspec_c; cumspec += Z * cumspec_m;
cumspec *= 1.0/cumspec[-1]`.  Because `cumspec` aliases `cumspec_c`, the
returned list is both the CDF used for the current cell and the new
`cumspec_c` seen by the next active cell of the same bin. -/
def cdfStep (cm cc : List ℚ) (Z : ℚ) : List ℚ :=
  let s := List.zipWith (· + ·) cc (cm.map (fun y => Z * y))
  let nf := 1 / lastD s 0
  s.map (fun x => x * nf)

/-- The in-place spectrum update of the accept_reject branch (lines
235-238): `tot_spec = cspec.d; tot_spec += Z * mspec.d;
tot_spec *= 1.0/tot_spec.sum()`, again mutating the aliased array. -/
def pmfStep (ms ts : List ℚ) (Z : ℚ) : List ℚ :=
  let s := List.zipWith (· + ·) ts (ms.map (fun y => Z * y))
  let nf := 1 / s.sum
  s.map (fun x => x * nf)

/-- The per-cell energy loop of one bin (lines 217-244), over the pairs
`(number_of_photons[i], metalZ[i])` of the bin.  State: the aliased
mutable spectrum (`cumspec_c` or `cspec.d`), the write position `ei`,
the stream offset, the chunk energy buffer, and the accumulated list of
performed slice writes `(ei, cn)`. -/
def thermalCellPass (P : TParams) (method : Method) (cm ms : List ℚ)
    (prng : ℕ → ℚ) :
    List (ℕ × ℚ) → List ℚ → ℕ → ℕ → List ℚ → List (ℕ × ℕ) →
    (List ℚ × ℕ × ℕ × List ℚ × List (ℕ × ℕ))
  | [], mst, ei, off, buf, ws => (mst, ei, off, buf, ws)
  | (cn, Z) :: rest, mst, ei, off, buf, ws =>
    if cn = 0 then thermalCellPass P method cm ms prng rest mst ei off buf ws
    else
      match method with
      | .invertCdf =>
        let mst2 := cdfStep cm mst Z
        let randvec := sortQ (draws prng off cn)
        let cellE := npInterp randvec mst2 P.ebins
        thermalCellPass P method cm ms prng rest mst2 (ei + cn) (off + cn)
          (setSlice buf ei cellE) (ws ++ [(ei, cn)])
      | .acceptReject =>
        let mst2 := pmfStep ms mst Z
        let us := draws prng off cn
        let cellE := (us.map (npChoice mst2)).map (fun j => P.emid.getD j 0)
        thermalCellPass P method cm ms prng rest mst2 (ei + cn) (off + cn)
          (setSlice buf ei cellE) (ws ++ [(ei, cn)])

/-- The array the cell loop of a bin starts from and then mutates in
place: `cumspec_c = np.insert(np.cumsum(cspec.d), 0, 0.0)` (lines
212-215) for invert_cdf, the array `cspec.d` itself for accept_reject. -/
def binStartState (method : Method) (b : TBin) : List ℚ :=
  match method with
  | .invertCdf => 0 :: cumsum b.cspec
  | .acceptReject => b.cspec

/-- The bin loop of one chunk (lines 179-246).  Per bin: the counts are
drawn, `end_e` is advanced and checked against `photons_per_chunk`
(lines 204-209) — the RuntimeError fires before any of the bin's
energies are sampled or written — then the cell pass runs with `ei =
start_e`, and `start_e` catches up to `end_e`.  State: `start_e`,
`end_e`, the energy buffer, the stream offset, the per-bin count lists,
and the accumulated writes.  An aborted run performs exactly the slice
writes of the bins processed before the raise, so the RuntimeError
carries that write trace (the Python exception carries no data; the
trace is ghost state recording which writes happened). -/
def thermalBinsPass (P : TParams) (method : Method) (prng : ℕ → ℚ) :
    List TBin → ℕ → ℕ → List ℚ → ℕ → List (List ℕ) → List (ℕ × ℕ) →
    Except (String × List (ℕ × ℕ))
      (List (List ℕ) × List ℚ × ℕ × ℕ × List (ℕ × ℕ))
  | [], _, endE, buf, off, csAcc, ws => .ok (csAcc, buf, endE, off, ws)
  | b :: rest, startE, endE, buf, off, csAcc, ws =>
    let cs := thermalBinCounts prng off b
    let off2 := off + b.cells.length
    let endE2 := endE + cs.sum
    if P.cap < endE2 then
      .error ("RuntimeError: number of photons generated for this chunk exceeds photons_per_chunk", ws)
    else
      let cm : List ℚ := 0 :: cumsum b.mspec
      let r := thermalCellPass P method cm b.mspec prng
        (List.zip cs (b.cells.map TCell.Z)) (binStartState method b) startE off2 buf []
      thermalBinsPass P method prng rest endE2 endE2 r.2.2.2.1 r.2.2.1
        (csAcc ++ [cs]) (ws ++ r.2.2.2.2)

/-- One chunk of `ThermalPhotonModel.__call__`: the bin loop over a
zeroed buffer of `photons_per_chunk` slots, then the appends of lines
248-252: `NumberOfPhotons` over active cells and
`Energy = energies[:end_e]`.  Also returns the advanced stream offset
and the performed slice writes. -/
def thermalChunk (P : TParams) (method : Method) (prng : ℕ → ℚ) (off : ℕ)
    (bins : List TBin) :
    Except String (List ℕ × List ℚ × ℕ × List (ℕ × ℕ)) :=
  match thermalBinsPass P method prng bins 0 0 (List.replicate P.cap 0) off [] [] with
  | .error e => .error e.1
  | .ok (csAcc, buf, endE, off2, ws) =>
    let nop := csAcc.flatten
    .ok (nop.filter (fun n => 0 < n), buf.take endE, off2, ws)

/-- The chunk loop of `ThermalPhotonModel.__call__` (lines 142-265)
followed by `concatenate_photons`: a chunk with zero cells is skipped
(lines 145-147), any other chunk contributes its partial arrays, and a
RuntimeError aborts the whole call. -/
def thermalCallGo (P : TParams) (method : Method) (prng : ℕ → ℚ) :
    List (List TBin) → ℕ → List ℕ → List ℚ →
    Except String (List ℕ × List ℚ)
  | [], _, an, ae => .ok (an, ae)
  | bins :: rest, off, an, ae =>
    if (bins.map (fun b => b.cells.length)).sum = 0 then
      thermalCallGo P method prng rest off an ae
    else
      match thermalChunk P method prng off bins with
      | .error e => .error e
      | .ok (nop, en, off2, _) =>
        thermalCallGo P method prng rest off2 (an ++ nop) (ae ++ en)

/-- `ThermalPhotonModel.__call__` over a list of chunks, returning the
concatenated `NumberOfPhotons` and `Energy` fields of the photon table,
or the RuntimeError of the capacity guard. -/
def thermalCall (P : TParams) (method : Method) (prng : ℕ → ℚ)
    (chunks : List (List TBin)) : Except String (List ℕ × List ℚ) :=
  thermalCallGo P method prng chunks 0 [] []

/-- The cumulative photon counts a chunk samples, bin by bin, with no
capacity guard interrupting — the quantity the spec's overflow guard
speaks about.  The stream offsets advance exactly as in the guarded
loop: one draw per cell for the counts, then one draw per sampled photon
for the energies. -/
def thermalFreeCounts (prng : ℕ → ℚ) : List TBin → ℕ → List (List ℕ)
  | [], _ => []
  | b :: rest, off =>
    let cs := thermalBinCounts prng off b
    cs :: thermalFreeCounts prng rest (off + b.cells.length + cs.sum)

/-- The per-cell CDF as the spec describes it: the cumulative sum of
`cosmic_spectrum + Z * metal_spectrum` over the energy grid (with the
leading 0 bin edge), normalized to 1 — depending only on the bin spectra
and the one cell's metallicity. -/
def specCellCDF (cspec mspec : List ℚ) (Z : ℚ) : List ℚ :=
  let c := 0 :: cumsum (List.zipWith (· + ·) cspec (mspec.map (fun y => Z * y)))
  let t := lastD c 0
  c.map (fun x => x / t)

/-! ## Supporting lemmas -/

theorem npTrunc_eq_floor (x : ℚ) (h : 0 ≤ x) : npTrunc x = ⌊x⌋ := by
  rw [npTrunc, Rat.floor_def]
  exact Int.tdiv_eq_ediv (Rat.num_nonneg.mpr h) (Int.natCast_nonneg _)

theorem sum_filter_pos (l : List ℕ) :
    (l.filter (fun n => 0 < n)).sum = l.sum := by
  induction l with
  | nil => rfl
  | cons a t ih =>
    by_cases ha : 0 < a
    · simp [List.filter_cons, ha, ih]
    · simp [List.filter_cons, ha, ih]
      omega

theorem draws_length (f : ℕ → ℚ) (off k : ℕ) : (draws f off k).length = k := by
  simp [draws]

theorem setSlice_length (buf : List ℚ) (s : ℕ) (vals : List ℚ)
    (h : s + vals.length ≤ buf.length) :
    (setSlice buf s vals).length = buf.length := by
  simp only [setSlice, List.length_append, List.length_take, List.length_drop]
  omega

theorem addSlice_length (buf : List ℚ) (s : ℕ) (vals : List ℚ) :
    (addSlice buf s vals).length = buf.length := by
  simp only [addSlice, List.length_append, List.length_take, List.length_drop,
    List.length_zipWith]
  omega

/-- Closed form of the count sampler for nonnegative `lam`. -/
theorem sampleCount_eq (lam u : ℚ) (h : 0 ≤ lam) :
    sampleCount lam u =
      if u ≤ Int.fract lam then ⌊lam⌋.toNat + 1 else ⌊lam⌋.toNat := by
  have ht : npTrunc lam = ⌊lam⌋ := npTrunc_eq_floor lam h
  simp only [sampleCount, npModf, ht, Int.fract, ge_iff_le]
  by_cases hc : u ≤ lam - (⌊lam⌋ : ℚ)
  · rw [if_pos hc, if_pos hc]
  · rw [if_neg hc, if_neg hc, Nat.add_zero]

theorem sampleCount_one_half : sampleCount 1 (1/2) = 1 := by
  rw [sampleCount_eq 1 (1/2) (by norm_num)]
  norm_num [Int.fract]

theorem sampleCount_th_tq : sampleCount (3/2) (3/4) = 1 := by
  rw [sampleCount_eq (3/2) (3/4) (by norm_num)]
  norm_num [Int.fract]

theorem sampleCount_zero_zero : sampleCount 0 0 = 1 := by
  rw [sampleCount_eq 0 0 (by norm_num)]
  norm_num

/-! ## C1 -/

/-- C1, counterexample: the claim says that for a cell with
`lambda = 0` the sampler returns `n = 0` for every value of the uniform
draw; but `numpy.random.uniform` draws from the half-open interval
`[0, 1)`, and at the draw `u = 0` the code's comparison
`cell_norm[0] >= u` is `0 >= 0`, true, so the sampler returns 1. -/
theorem C1_counterexample : ¬ (sampleCount 0 0 = 0) := by
  rw [sampleCount_zero_zero]
  omega

/-- C1, amended: for `lambda >= 0` the sampler returns
`floor(lambda) + 1` when `u <= lambda - floor(lambda)` (non-strict, where
the claim said strict `u < f`), and `floor(lambda)` otherwise; in
particular for `lambda = 0` it returns 0 for every draw `u > 0` (but not
for the possible draw `u = 0`). -/
theorem C1_amended_sampleCount (lam u : ℚ) (h : 0 ≤ lam) :
    (sampleCount lam u =
      if u ≤ Int.fract lam then ⌊lam⌋.toNat + 1 else ⌊lam⌋.toNat) ∧
    (lam = 0 → 0 < u → sampleCount lam u = 0) := by
  refine ⟨sampleCount_eq lam u h, ?_⟩
  rintro rfl hu
  rw [sampleCount_eq 0 u le_rfl]
  rw [if_neg (by simpa using not_le.mpr hu)]
  norm_num

/-- Witness for C1: the amended statement at `lambda = 3/2`, `u = 1/2`. -/
theorem C1_witness :
    (sampleCount (3/2) (1/2) =
      if (1/2 : ℚ) ≤ Int.fract ((3/2 : ℚ)) then ⌊(3/2 : ℚ)⌋.toNat + 1
      else ⌊(3/2 : ℚ)⌋.toNat) ∧
    ((3/2 : ℚ) = 0 → 0 < (1/2 : ℚ) → sampleCount (3/2) (1/2) = 0) :=
  C1_amended_sampleCount (3/2) (1/2) (by norm_num)

/-- C3 fails on the code (code bug): the invert_cdf branch writes
`cumspec = cumspec_c; cumspec += Z*cumspec_m; cumspec *= norm_factor`,
mutating `cumspec_c` in place, so the second active cell of a bin
samples from a CDF polluted by the first cell.  Concretely, with
`cspec = [1,0]`, `mspec = [0,1]`, two identical cells of metallicity 1:
the first cell uses the CDF the spec describes, the second uses
`[0, 1/4, 1]` instead of `[0, 1/2, 1]`; running the whole thermal chunk
with identical draws (every uniform 1/2) gives the two identical cells
the different energies 1 and 4/3, where the spec CDF gives 1 for both. -/
theorem C3_inplace_cdf_bug :
    cdfStep (0 :: cumsum [0, 1]) (0 :: cumsum [1, 0]) 1 =
      specCellCDF [1, 0] [0, 1] 1 ∧
    cdfStep (0 :: cumsum [0, 1]) (cdfStep (0 :: cumsum [0, 1]) (0 :: cumsum [1, 0]) 1) 1 ≠
      specCellCDF [1, 0] [0, 1] 1 ∧
    thermalCall ⟨10, [0, 1, 2], [1/2, 3/2]⟩ Method.invertCdf (fun _ => 1/2)
      [[⟨[1, 0], [0, 1], [⟨1/2, 1⟩, ⟨1/2, 1⟩]⟩]] = .ok ([1, 1], [1, 4/3]) ∧
    npInterp [1/2] (specCellCDF [1, 0] [0, 1] 1) [0, 1, 2] = [1] ∧
    ((4 : ℚ)/3) ≠ 1 := by
  norm_num [thermalCall, thermalCallGo, thermalChunk, thermalBinsPass,
    binStartState, thermalBinCounts, thermalCellPass, cdfStep, specCellCDF, cumsum, lastD,
    sortQ, List.insertionSort, List.orderedInsert, npInterp, npInterp1,
    draws, setSlice, List.enum, List.enumFrom, sampleCount_one_half,
    List.range_succ]

/-! ## C5 -/

/-- C6 fails on the code for one of the three variants (code bug): the
thermal model skips a zero-cell chunk (lines 145-147) and the line model
processes one harmlessly, both contributing no entries, but
`PowerLawModel.__call__` has no guard: on a first chunk with zero cells
no loop iteration binds `end_e`, and `energies[:end_e]` (line 352)
raises a NameError. -/
theorem C6_empty_chunk :
    thermalCall ⟨10, [0, 1, 2], [1/2, 3/2]⟩ Method.invertCdf (fun _ => 1/2)
      [[]] = .ok ([], []) ∧
    thermalCall ⟨10, [0, 1, 2], [1/2, 3/2]⟩ Method.invertCdf (fun _ => 1/2)
      [[], [⟨[1, 0], [0, 1], [⟨1/2, 1⟩, ⟨1/2, 1⟩]⟩]] = .ok ([1, 1], [1, 4/3]) ∧
    lineCall ⟨2, 1, 1, 1, 1⟩ LSigma.noSigma (fun _ => 3/4) (fun _ => 0)
      [[]] = ([], []) ∧
    lineCall ⟨2, 1, 1, 1, 1⟩ LSigma.noSigma (fun _ => 3/4) (fun _ => 0)
      [[], [⟨3/2, 1, 0⟩]] = ([1], [1]) ∧
    powerLawCall (fun b _ => b) ⟨1, 1, 2, 1, 1, 1⟩ (PLIndex.field "idx")
      (fun _ => 3/4) [[]] = .error "NameError: name end_e is not defined" := by
  norm_num [thermalCall, thermalCallGo, thermalChunk, thermalBinsPass,
    binStartState, thermalBinCounts, thermalCellPass, cdfStep, cumsum, lastD, sortQ,
    List.insertionSort, List.orderedInsert, npInterp, npInterp1, draws,
    setSlice, List.enum, List.enumFrom, sampleCount_one_half,
    sampleCount_th_tq, List.range_succ, lineCall, lineCallGo, lineChunk,
    powerLawCall, plCallGo, powerLawChunk, plLoop]

/-! ## C7 -/

theorem lineChunk_noSigma_mem (P : LineParams) (prng normals : ℕ → ℚ)
    (off noff : ℕ) (cells : List LCell) :
    ∀ e ∈ (lineChunk P LSigma.noSigma prng normals off noff cells).2.1,
      e = P.loc / (1 + P.z) := by
  intro e he
  simp only [lineChunk, List.mem_map] at he
  obtain ⟨a, ha, rfl⟩ := he
  rw [List.eq_of_mem_replicate ha]

theorem lineCallGo_noSigma_mem (P : LineParams) (prng normals : ℕ → ℚ)
    (chunks : List (List LCell)) :
    ∀ off noff an ae, (∀ x ∈ ae, x = P.loc / (1 + P.z)) →
      ∀ e ∈ (lineCallGo P LSigma.noSigma prng normals chunks off noff an ae).2,
        e = P.loc / (1 + P.z) := by
  induction chunks with
  | nil => intro off noff an ae hae e he; exact hae e he
  | cons c rest ih =>
    intro off noff an ae hae e he
    refine ih _ _ _ _ (fun x hx => ?_) e he
    rcases List.mem_append.mp hx with h | h
    · exact hae x h
    · exact lineChunk_noSigma_mem P prng normals off noff c x h

/-- C7: with `sigma = None` every energy of the produced photon table is
exactly `location / (1 + redshift)`: the energy array starts as
`location * ones(n)` (line 437), no broadening branch runs, and line 453
divides by `1 + redshift`. -/
theorem C7_line_energies (P : LineParams) (prng normals : ℕ → ℚ)
    (chunks : List (List LCell)) (e : ℚ)
    (he : e ∈ (lineCall P LSigma.noSigma prng normals chunks).2) :
    e = P.loc / (1 + P.z) :=
  lineCallGo_noSigma_mem P prng normals chunks 0 0 [] [] (by simp) e he

/-- Witness for C7 at a concrete one-cell run whose table is
`([1], [1])`. -/
theorem C7_witness :
    (1 : ℚ) ∈ (lineCall ⟨2, 1, 1, 1, 1⟩ LSigma.noSigma (fun _ => 3/4)
      (fun _ => 0) [[⟨3/2, 1, 0⟩]]).2 ∧
    (1 : ℚ) = (2 : ℚ) / (1 + 1) := by
  have hm : (1 : ℚ) ∈ (lineCall ⟨2, 1, 1, 1, 1⟩ LSigma.noSigma (fun _ => 3/4)
      (fun _ => 0) [[⟨3/2, 1, 0⟩]]).2 := by
    norm_num [lineCall, lineCallGo, lineChunk, draws, List.enum,
      List.enumFrom, sampleCount_th_tq, List.range_succ]
  exact ⟨hm, C7_line_energies ⟨2, 1, 1, 1, 1⟩ (fun _ => 3/4) (fun _ => 0)
    [[⟨3/2, 1, 0⟩]] 1 hm⟩

/-! ## C8 -/

/-- C8: for a constant `sigma` (YTQuantity or `(value, unit)` tuple),
`LineEmissionModel.__init__` raises exactly when the unit dimension is
neither energy nor velocity, and a bare float (stamped keV by
`parse_value`) always succeeds — so the unit-coherence error is raised
at construction; the generation pass `lineChunk`/`lineCall` is a total
function and cannot raise it. -/
theorem C8_sigma_units (cl : ℚ) (loc : YTQ) :
    (∀ (v : ℚ) (d : Dim),
      (isErr (lineInit cl loc (SigmaArg.val (PyVal.quant ⟨v, d⟩))) = true ↔
        d ≠ Dim.energy ∧ d ≠ Dim.velocity) ∧
      (isErr (lineInit cl loc (SigmaArg.val (PyVal.tup v d))) = true ↔
        d ≠ Dim.energy ∧ d ≠ Dim.velocity)) ∧
    (∀ v : ℚ, isErr (lineInit cl loc (SigmaArg.val (PyVal.flt v))) = false) := by
  refine ⟨fun v d => ?_, fun v => rfl⟩
  cases d <;> simp [lineInit, parse_value, inUnits, isErr]

/-! ## C9 -/

/-- C9, counterexample: after concatenation an empty `NumberOfPhotons`
field is the plain untyped `np.array([])` (line 54), not a zero-length
array with a unit attached; the other empty fields do get their unit
(here `Energy` gets keV). -/
theorem C9_counterexample :
    concatenate_photons [("NumberOfPhotons", []), ("Energy", [])] =
      .ok [("NumberOfPhotons", PField.np []), ("Energy", PField.yt [] "keV")] ∧
    PField.hasUnit (PField.np []) = false :=
  ⟨rfl, rfl⟩

/-- C9, amended: every field of the table that received no entries
becomes a zero-length array with the unit of `photon_units` attached
(keV for Energy, kpc for x/y/z/dx, km/s for vx/vy/vz) — except
`NumberOfPhotons`, which becomes a plain unit-less empty numpy array. -/
theorem C9_amended_concat_units (tbl : List (String × List PField))
    (out : List (String × PField)) (h : concatenate_photons tbl = .ok out)
    (i : ℕ) (k : String)
    (hik : tbl.getD i ("", [PField.np []]) = (k, [])) :
    out.getD i ("", PField.np []) =
      (k, if k = "NumberOfPhotons" then PField.np []
          else PField.yt [] ((photonUnits k).getD "")) := by
  induction tbl generalizing out i with
  | nil => simp [List.getD] at hik
  | cons hd tl ih =>
    obtain ⟨kh, lh⟩ := hd
    unfold concatenate_photons at h
    cases hce : concatEntry kh lh with
    | error e => rw [hce] at h; exact absurd h (by simp)
    | ok f =>
      rw [hce] at h
      cases hrest : concatenate_photons tl with
      | error e => rw [hrest] at h; exact absurd h (by simp)
      | ok out2 =>
        rw [hrest] at h
        have hout : out = (kh, f) :: out2 := by
          cases h; rfl
        subst hout
        cases i with
        | zero =>
          simp only [List.getD_cons_zero] at hik ⊢
          injection hik with h1 h2
          subst h1
          subst h2
          by_cases hk : kh = "NumberOfPhotons"
          · subst hk
            simp only [concatEntry, List.length_nil, lt_irrefl, if_false,
              if_true, reduceIte] at hce
            injection hce with hf
            subst hf
            simp
          · simp only [concatEntry, List.length_nil, lt_irrefl, if_false,
              hk, reduceIte] at hce
            cases hpu : photonUnits kh with
            | none => rw [hpu] at hce; exact absurd hce (by simp)
            | some un =>
              rw [hpu] at hce
              injection hce with hf
              subst hf
              simp [hk, hpu]
        | succ n =>
          simp only [List.getD_cons_succ] at hik ⊢
          exact ih out2 hrest n hik

/-- Witness for C9 at a one-field table with an empty Energy field. -/
theorem C9_witness :
    concatenate_photons [("Energy", [])] = .ok [("Energy", PField.yt [] "keV")] ∧
    [("Energy", PField.yt [] "keV")].getD 0 ("", PField.np []) =
      ("Energy", if "Energy" = "NumberOfPhotons" then PField.np []
        else PField.yt [] ((photonUnits "Energy").getD "")) :=
  ⟨rfl, C9_amended_concat_units [("Energy", [])] [("Energy", PField.yt [] "keV")]
    rfl 0 "Energy" rfl⟩

/-! ## Loop invariants of the thermal pass -/

theorem thermalBinCounts_length (prng : ℕ → ℚ) (off : ℕ) (b : TBin) :
    (thermalBinCounts prng off b).length = b.cells.length := by
  simp [thermalBinCounts]

theorem sortQ_length (xs : List ℚ) : (sortQ xs).length = xs.length := by
  simp [sortQ, List.length_insertionSort]

theorem npInterp_length (xs xp fp : List ℚ) :
    (npInterp xs xp fp).length = xs.length := by
  simp [npInterp]

theorem thermalCellPass_spec (P : TParams) (m : Method) (cm ms : List ℚ)
    (prng : ℕ → ℚ) (l : List (ℕ × ℚ)) :
    ∀ mst ei off buf ws,
      (thermalCellPass P m cm ms prng l mst ei off buf ws).2.1 =
        ei + (l.map Prod.fst).sum ∧
      (thermalCellPass P m cm ms prng l mst ei off buf ws).2.2.1 =
        off + (l.map Prod.fst).sum ∧
      (∀ w ∈ (thermalCellPass P m cm ms prng l mst ei off buf ws).2.2.2.2,
        w ∈ ws ∨ (ei ≤ w.1 ∧ w.1 + w.2 ≤ ei + (l.map Prod.fst).sum)) ∧
      (ei + (l.map Prod.fst).sum ≤ buf.length →
        (thermalCellPass P m cm ms prng l mst ei off buf ws).2.2.2.1.length =
          buf.length) := by
  induction l with
  | nil =>
    intro mst ei off buf ws
    refine ⟨by simp [thermalCellPass], by simp [thermalCellPass],
      fun w hw => Or.inl (by simpa [thermalCellPass] using hw),
      fun _ => by simp [thermalCellPass]⟩
  | cons hd rest ih =>
    intro mst ei off buf ws
    obtain ⟨cn, Z⟩ := hd
    by_cases hcn : cn = 0
    · subst hcn
      simp only [thermalCellPass, if_pos rfl, List.map_cons, List.sum_cons]
      have := ih mst ei off buf ws
      simpa using this
    · cases m with
      | invertCdf =>
        simp only [thermalCellPass, if_neg hcn, List.map_cons, List.sum_cons]
        set cellE := npInterp (sortQ (draws prng off cn)) (cdfStep cm mst Z)
          P.ebins with hcE
        have hC : cellE.length = cn := by
          rw [hcE, npInterp_length, sortQ_length, draws_length]
        obtain ⟨h1, h2, h3, h4⟩ := ih (cdfStep cm mst Z) (ei + cn) (off + cn)
          (setSlice buf ei cellE) (ws ++ [(ei, cn)])
        refine ⟨by omega, by omega, ?_, ?_⟩
        · intro w hw
          rcases h3 w hw with hmem | hbd
          · rcases List.mem_append.mp hmem with hws | hnew
            · exact Or.inl hws
            · right
              rcases List.mem_singleton.mp hnew with rfl
              simp only
              omega
          · right
            omega
        · intro hb
          have hslice : (setSlice buf ei cellE).length = buf.length := by
            apply setSlice_length
            omega
          rw [h4 (by omega), hslice]
      | acceptReject =>
        simp only [thermalCellPass, if_neg hcn, List.map_cons, List.sum_cons]
        set cellE := ((draws prng off cn).map (npChoice (pmfStep ms mst Z))).map
          (fun j => P.emid.getD j 0) with hcE
        have hC : cellE.length = cn := by
          rw [hcE]
          simp [draws_length]
        obtain ⟨h1, h2, h3, h4⟩ := ih (pmfStep ms mst Z) (ei + cn) (off + cn)
          (setSlice buf ei cellE) (ws ++ [(ei, cn)])
        refine ⟨by omega, by omega, ?_, ?_⟩
        · intro w hw
          rcases h3 w hw with hmem | hbd
          · rcases List.mem_append.mp hmem with hws | hnew
            · exact Or.inl hws
            · right
              rcases List.mem_singleton.mp hnew with rfl
              simp only
              omega
          · right
            omega
        · intro hb
          have hslice : (setSlice buf ei cellE).length = buf.length := by
            apply setSlice_length
            omega
          rw [h4 (by omega), hslice]

theorem thermalBinsPass_spec (P : TParams) (m : Method) (prng : ℕ → ℚ)
    (bins : List TBin) :
    ∀ endE buf off csAcc ws cs2 buf2 endE2 off2 ws2,
      thermalBinsPass P m prng bins endE endE buf off csAcc ws =
        .ok (cs2, buf2, endE2, off2, ws2) →
      endE ≤ P.cap → buf.length = P.cap →
      endE = (csAcc.map List.sum).sum →
      (∀ w ∈ ws, w.1 + w.2 ≤ P.cap) →
      endE2 = (cs2.map List.sum).sum ∧ endE2 ≤ P.cap ∧
        buf2.length = P.cap ∧ (∀ w ∈ ws2, w.1 + w.2 ≤ P.cap) := by
  induction bins with
  | nil =>
    intro endE buf off csAcc ws cs2 buf2 endE2 off2 ws2 h hE hB hS hW
    simp only [thermalBinsPass, Except.ok.injEq, Prod.mk.injEq] at h
    obtain ⟨rfl, rfl, rfl, rfl, rfl⟩ := h
    exact ⟨hS, hE, hB, hW⟩
  | cons b rest ih =>
    intro endE buf off csAcc ws cs2 buf2 endE2 off2 ws2 h hE hB hS hW
    simp only [thermalBinsPass] at h
    set cs := thermalBinCounts prng off b with hcs
    by_cases hcap : P.cap < endE + cs.sum
    · rw [if_pos hcap] at h
      exact absurd h (by simp)
    · rw [if_neg hcap] at h
      have hzip : (List.zip cs (b.cells.map TCell.Z)).map Prod.fst = cs := by
        apply List.map_fst_zip
        rw [hcs, thermalBinCounts_length]
        simp
      obtain ⟨hei, hoff, hwrites, hlen⟩ := thermalCellPass_spec P m
        (0 :: cumsum b.mspec) b.mspec prng (List.zip cs (b.cells.map TCell.Z))
        (binStartState m b) endE (off + b.cells.length) buf []
      rw [hzip] at hwrites hlen
      refine ih (endE + cs.sum) _ _ (csAcc ++ [cs]) _ cs2 buf2 endE2 off2 ws2 h
        (by omega) ?_ ?_ ?_
      · rw [hlen (by omega), hB]
      · simp [hS]
      · intro w hw
        rcases List.mem_append.mp hw with hws | hnew
        · exact hW w hws
        · rcases hwrites w hnew with hfalse | hbd
          · simp at hfalse
          · omega

theorem thermalChunk_spec (P : TParams) (m : Method) (prng : ℕ → ℚ)
    (off : ℕ) (bins : List TBin) (nop : List ℕ) (en : List ℚ) (off2 : ℕ)
    (ws : List (ℕ × ℕ))
    (h : thermalChunk P m prng off bins = .ok (nop, en, off2, ws)) :
    nop.sum = en.length ∧ ∀ w ∈ ws, w.1 + w.2 ≤ P.cap := by
  unfold thermalChunk at h
  cases hbp : thermalBinsPass P m prng bins 0 0 (List.replicate P.cap 0) off [] [] with
  | error e => rw [hbp] at h; exact absurd h (by simp)
  | ok r =>
    obtain ⟨cs2, buf2, endE2, off2x, ws2⟩ := r
    rw [hbp] at h
    simp only [Except.ok.injEq, Prod.mk.injEq] at h
    obtain ⟨rfl, rfl, rfl, rfl⟩ := h
    obtain ⟨hsum, hle, hlen, hws⟩ := thermalBinsPass_spec P m prng bins 0
      (List.replicate P.cap 0) off [] [] cs2 buf2 endE2 off2x ws2 hbp
      (Nat.zero_le _) (by simp) rfl (by simp)
    refine ⟨?_, hws⟩
    rw [sum_filter_pos, List.sum_flatten, List.length_take, hlen, ← hsum]
    omega

theorem thermalCallGo_sum (P : TParams) (m : Method) (prng : ℕ → ℚ)
    (chunks : List (List TBin)) :
    ∀ off an ae nop en,
      thermalCallGo P m prng chunks off an ae = .ok (nop, en) →
      an.sum = ae.length → nop.sum = en.length := by
  induction chunks with
  | nil =>
    intro off an ae nop en h hinv
    simp only [thermalCallGo, Except.ok.injEq, Prod.mk.injEq] at h
    obtain ⟨rfl, rfl⟩ := h
    exact hinv
  | cons c rest ih =>
    intro off an ae nop en h hinv
    simp only [thermalCallGo] at h
    by_cases hg : (c.map (fun b => b.cells.length)).sum = 0
    · rw [if_pos hg] at h
      exact ih off an ae nop en h hinv
    · rw [if_neg hg] at h
      cases hch : thermalChunk P m prng off c with
      | error e => rw [hch] at h; exact absurd h (by simp)
      | ok r =>
        obtain ⟨nop1, en1, off3, ws1⟩ := r
        rw [hch] at h
        refine ih off3 (an ++ nop1) (ae ++ en1) nop en h ?_
        have := (thermalChunk_spec P m prng off c nop1 en1 off3 ws1 hch).1
        simp [hinv, this]

theorem thermalBinsPass_err_iff (P : TParams) (m : Method) (prng : ℕ → ℚ)
    (bins : List TBin) :
    ∀ endE buf off csAcc ws, endE ≤ P.cap →
      (isErr (thermalBinsPass P m prng bins endE endE buf off csAcc ws) = true ↔
        P.cap < endE + ((thermalFreeCounts prng bins off).map List.sum).sum) := by
  induction bins with
  | nil =>
    intro endE buf off csAcc ws hE
    simp [thermalBinsPass, thermalFreeCounts, isErr]
    omega
  | cons b rest ih =>
    intro endE buf off csAcc ws hE
    simp only [thermalBinsPass, thermalFreeCounts, List.map_cons, List.sum_cons]
    set cs := thermalBinCounts prng off b with hcs
    by_cases hcap : P.cap < endE + cs.sum
    · rw [if_pos hcap]
      simp only [isErr, true_iff]
      omega
    · rw [if_neg hcap]
      have hzip : (List.zip cs (b.cells.map TCell.Z)).map Prod.fst = cs := by
        apply List.map_fst_zip
        rw [hcs, thermalBinCounts_length]
        simp
      obtain ⟨hei, hoff, hwrites, hlen⟩ := thermalCellPass_spec P m
        (0 :: cumsum b.mspec) b.mspec prng (List.zip cs (b.cells.map TCell.Z))
        (binStartState m b) endE (off + b.cells.length) buf []
      rw [hzip] at hoff
      rw [hoff]
      have := ih (endE + cs.sum)
        (thermalCellPass P m (0 :: cumsum b.mspec) b.mspec prng
          (List.zip cs (b.cells.map TCell.Z)) (binStartState m b) endE
          (off + b.cells.length) buf []).2.2.2.1
        (off + b.cells.length + cs.sum) (csAcc ++ [cs])
        (ws ++ (thermalCellPass P m (0 :: cumsum b.mspec) b.mspec prng
          (List.zip cs (b.cells.map TCell.Z)) (binStartState m b) endE
          (off + b.cells.length) buf []).2.2.2.2) (by omega)
      rw [this]
      omega

/-! ## Loop invariants of the power-law and line passes -/

theorem sliceAssign_length (buf : List ℚ) (s cn : ℕ) (vals : List ℚ)
    (buf2 : List ℚ) (h : sliceAssign buf s cn vals = .ok buf2)
    (hb : s + cn ≤ buf.length) : buf2.length = buf.length := by
  unfold sliceAssign at h
  by_cases h1 : vals.length = cn
  · rw [if_pos h1] at h
    injection h with h
    rw [← h]
    exact setSlice_length _ _ _ (by omega)
  · rw [if_neg h1] at h
    by_cases h2 : vals.length = 1
    · rw [if_pos h2] at h
      injection h with h
      rw [← h]
      exact setSlice_length _ _ _ (by simp; omega)
    · rw [if_neg h2] at h
      exact absurd h (by simp)

theorem plLoop_spec (pw : ℚ → ℚ → ℚ) (emin : ℚ) (prng : ℕ → ℚ)
    (idxs fracs ints : List ℚ) (l : List (ℕ × ℕ)) :
    ∀ buf s ee off buf2 s2 ee2 off2,
      plLoop pw emin prng idxs fracs ints l buf s ee off =
        .ok (buf2, s2, ee2, off2) →
      s + (l.map Prod.snd).sum ≤ buf.length →
      buf2.length = buf.length ∧ s2 = s + (l.map Prod.snd).sum ∧
        (ee2 = some s2 ∨ (ee2 = ee ∧ (l.map Prod.snd).sum = 0)) := by
  induction l with
  | nil =>
    intro buf s ee off buf2 s2 ee2 off2 h hb
    simp only [plLoop, Except.ok.injEq, Prod.mk.injEq] at h
    obtain ⟨rfl, rfl, rfl, rfl⟩ := h
    simp
  | cons hd rest ih =>
    intro buf s ee off buf2 s2 ee2 off2 h hb
    obtain ⟨i, cn⟩ := hd
    simp only [plLoop, List.map_cons, List.sum_cons] at h ⊢
    simp only [List.map_cons, List.sum_cons] at hb
    by_cases hcn : cn = 0
    · rw [if_pos hcn] at h
      subst hcn
      obtain ⟨hl, hs, he⟩ := ih buf s ee off buf2 s2 ee2 off2 h (by simpa using hb)
      refine ⟨hl, by omega, ?_⟩
      rcases he with he | ⟨he, hz⟩
      · exact Or.inl he
      · exact Or.inr ⟨he, by omega⟩
    · rw [if_neg hcn] at h
      rcases hni : (if i = 0 then Except.ok fracs
        else if i = 1 then Except.ok ints
        else Except.error "IndexError: tuple index out of range" :
          Except String (List ℚ)) with e | normI
      · rw [hni] at h; exact absurd h (by simp)
      · rw [hni] at h
        dsimp only at h
        rcases hbm : npBroadcastMul (draws prng off cn) normI with e | e1
        · rw [hbm] at h; exact absurd h (by simp)
        · rw [hbm] at h
          dsimp only at h
          rcases hsa : sliceAssign buf s cn
            (e1.map (fun x => pw (pw emin (1 - idxs.getD i 0) + x)
              (1 / (1 - idxs.getD i 0)))) with e | bufx
          · rw [hsa] at h; exact absurd h (by simp)
          · rw [hsa] at h
            dsimp only at h
            have hbx : bufx.length = buf.length :=
              sliceAssign_length _ _ _ _ _ hsa (by omega)
            obtain ⟨hl, hs, he⟩ := ih bufx (s + cn) (some (s + cn)) (off + cn)
              buf2 s2 ee2 off2 h (by omega)
            refine ⟨by omega, by omega, ?_⟩
            rcases he with he | ⟨he, hz⟩
            · exact Or.inl he
            · left
              rw [he]
              congr 1
              omega

theorem powerLawChunk_sum (pw : ℚ → ℚ → ℚ) (P : PLParams) (idx : PLIndex)
    (prng : ℕ → ℚ) (off : ℕ) (ee : Option ℕ) (cells : List PLCell)
    (nop : List ℕ) (en : List ℚ) (off2 : ℕ) (ee2 : Option ℕ)
    (h : powerLawChunk pw P idx prng off ee cells = .ok (nop, en, off2, ee2)) :
    nop.sum = en.length := by
  unfold powerLawChunk at h
  cases idx with
  | scalar a => exact absurd h (by simp)
  | field name =>
    simp only at h
    set idxs := cells.map PLCell.idxf with hidxs
    set normFac := idxs.map
      (fun a => (pw P.emax (1 - a) - pw P.emin (1 - a)) * P.distFac) with hnf
    set norm0 := List.zipWith
      (fun nf c => P.expT * P.area * nf * c.normf * pw P.e0 c.idxf / (1 - c.idxf))
      normFac cells with hn0
    set nop0 := List.zipWith sampleCount norm0 (draws prng off normFac.length)
      with hnop
    rcases hpl : plLoop pw P.emin prng idxs (norm0.map (fun x => (npModf x).1))
      (norm0.map (fun x => (npModf x).2)) nop0.enum
      (List.replicate nop0.sum 0) 0 ee (off + normFac.length)
      with e | r
    · rw [hpl] at h; exact absurd h (by simp)
    · obtain ⟨buf, sx, eex, offx⟩ := r
      rw [hpl] at h
      cases eex with
      | none => exact absurd h (by simp)
      | some t =>
        simp only [Except.ok.injEq, Prod.mk.injEq] at h
        obtain ⟨rfl, rfl, rfl, rfl⟩ := h
        have henum : nop0.enum.map Prod.snd = nop0 := List.enum_map_snd nop0
        obtain ⟨hl, hs, he⟩ := plLoop_spec pw P.emin prng idxs
          (norm0.map (fun x => (npModf x).1)) (norm0.map (fun x => (npModf x).2))
          nop0.enum (List.replicate nop0.sum 0) 0 ee (off + normFac.length)
          buf sx (some t) offx hpl (by rw [henum]; simp)
        rw [henum] at hs he
        simp only [List.length_replicate] at hl
        rw [sum_filter_pos, List.length_take, hl]
        rcases he with he | ⟨_, hz⟩
        · injection he with he
          omega
        · omega

theorem plCallGo_sum (pw : ℚ → ℚ → ℚ) (P : PLParams) (idx : PLIndex)
    (prng : ℕ → ℚ) (chunks : List (List PLCell)) :
    ∀ off ee an ae nop en,
      plCallGo pw P idx prng chunks off ee an ae = .ok (nop, en) →
      an.sum = ae.length → nop.sum = en.length := by
  induction chunks with
  | nil =>
    intro off ee an ae nop en h hinv
    simp only [plCallGo, Except.ok.injEq, Prod.mk.injEq] at h
    obtain ⟨rfl, rfl⟩ := h
    exact hinv
  | cons c rest ih =>
    intro off ee an ae nop en h hinv
    simp only [plCallGo] at h
    cases hch : powerLawChunk pw P idx prng off ee c with
    | error e => rw [hch] at h; exact absurd h (by simp)
    | ok r =>
      obtain ⟨nop1, en1, off3, ee3⟩ := r
      rw [hch] at h
      refine ih off3 ee3 (an ++ nop1) (ae ++ en1) nop en h ?_
      have := powerLawChunk_sum pw P idx prng off ee c nop1 en1 off3 ee3 hch
      simp [hinv, this]

theorem lineFieldLoop_length (normals : ℕ → ℚ) (l : List (ℕ × ℚ)) :
    ∀ buf s noff, (lineFieldLoop normals l buf s noff).1.length = buf.length := by
  induction l with
  | nil => intro buf s noff; rfl
  | cons hd rest ih =>
    intro buf s noff
    obtain ⟨cn, sf⟩ := hd
    by_cases hcn : cn = 0
    · simp only [lineFieldLoop, if_pos hcn]
      exact ih buf s noff
    · simp only [lineFieldLoop, if_neg hcn]
      rw [ih, addSlice_length]

theorem lineChunk_sum (P : LineParams) (sigma : LSigma) (prng normals : ℕ → ℚ)
    (off noff : ℕ) (cells : List LCell) :
    ((lineChunk P sigma prng normals off noff cells).1).sum =
      ((lineChunk P sigma prng normals off noff cells).2.1).length := by
  unfold lineChunk
  set nop := List.zipWith sampleCount
    (cells.map (fun c => c.ampl * c.vol * P.distFac * P.expT * P.area))
    (draws prng off cells.length) with hnop
  simp only
  rw [sum_filter_pos, List.length_map]
  cases sigma with
  | noSigma => simp
  | constSigma s => simp [draws_length]
  | fieldSigma name => rw [lineFieldLoop_length]; simp

theorem lineCallGo_sum (P : LineParams) (sigma : LSigma)
    (prng normals : ℕ → ℚ) (chunks : List (List LCell)) :
    ∀ off noff an ae,
      an.sum = ae.length →
      ((lineCallGo P sigma prng normals chunks off noff an ae).1).sum =
        ((lineCallGo P sigma prng normals chunks off noff an ae).2).length := by
  induction chunks with
  | nil => intro off noff an ae hinv; exact hinv
  | cons c rest ih =>
    intro off noff an ae hinv
    simp only [lineCallGo]
    refine ih _ _ _ _ ?_
    have := lineChunk_sum P sigma prng normals off noff c
    simp [hinv, this]

/-! ## C2 -/

/-- C2: for every photon table any of the three models returns (thermal
and power-law can instead raise; the line model is total), the sum of the
`NumberOfPhotons` field equals the length of the `Energy` field. -/
theorem C2_table_invariant :
    (∀ (P : TParams) (m : Method) (prng : ℕ → ℚ) (chunks : List (List TBin))
      (nop : List ℕ) (en : List ℚ),
      thermalCall P m prng chunks = .ok (nop, en) → nop.sum = en.length) ∧
    (∀ (pw : ℚ → ℚ → ℚ) (P : PLParams) (idx : PLIndex) (prng : ℕ → ℚ)
      (chunks : List (List PLCell)) (nop : List ℕ) (en : List ℚ),
      powerLawCall pw P idx prng chunks = .ok (nop, en) → nop.sum = en.length) ∧
    (∀ (P : LineParams) (sigma : LSigma) (prng normals : ℕ → ℚ)
      (chunks : List (List LCell)),
      ((lineCall P sigma prng normals chunks).1).sum =
        ((lineCall P sigma prng normals chunks).2).length) :=
  ⟨fun P m prng chunks nop en h =>
    thermalCallGo_sum P m prng chunks 0 [] [] nop en h rfl,
   fun pw P idx prng chunks nop en h =>
    plCallGo_sum pw P idx prng chunks 0 none [] [] nop en h rfl,
   fun P sigma prng normals chunks =>
    lineCallGo_sum P sigma prng normals chunks 0 0 [] [] rfl⟩

/-- Witness for C2: one concrete successful run of each of the three
models. -/
theorem C2_witness :
    thermalCall ⟨10, [0, 1, 2], [1/2, 3/2]⟩ Method.invertCdf (fun _ => 1/2)
      [[⟨[1, 0], [0, 1], [⟨1/2, 1⟩, ⟨1/2, 1⟩]⟩]] = .ok ([1, 1], [1, 4/3]) ∧
    ([1, 1] : List ℕ).sum = ([1, (4 : ℚ)/3] : List ℚ).length ∧
    powerLawCall (fun b _ => b) ⟨1, 1, 2, 1, 1, 1⟩ (PLIndex.field "idx")
      (fun _ => 3/4) [[⟨0, 3/2⟩]] = .ok ([1], [11/8]) ∧
    ([1] : List ℕ).sum = ([(11 : ℚ)/8] : List ℚ).length ∧
    ((lineCall ⟨2, 1, 1, 1, 1⟩ LSigma.noSigma (fun _ => 3/4) (fun _ => 0)
      [[⟨3/2, 1, 0⟩]]).1).sum =
      ((lineCall ⟨2, 1, 1, 1, 1⟩ LSigma.noSigma (fun _ => 3/4) (fun _ => 0)
        [[⟨3/2, 1, 0⟩]]).2).length := by
  have h1 : thermalCall ⟨10, [0, 1, 2], [1/2, 3/2]⟩ Method.invertCdf
      (fun _ => 1/2) [[⟨[1, 0], [0, 1], [⟨1/2, 1⟩, ⟨1/2, 1⟩]⟩]] =
      .ok ([1, 1], [1, 4/3]) := by
    norm_num [thermalCall, thermalCallGo, thermalChunk, thermalBinsPass,
      binStartState, thermalBinCounts, thermalCellPass, cdfStep, cumsum,
      lastD, sortQ, List.insertionSort, List.orderedInsert, npInterp,
      npInterp1, draws, setSlice, List.enum, List.enumFrom,
      sampleCount_one_half, List.range_succ]
  have h2 : powerLawCall (fun b _ => b) ⟨1, 1, 2, 1, 1, 1⟩
      (PLIndex.field "idx") (fun _ => 3/4) [[⟨0, 3/2⟩]] =
      .ok ([1], [11/8]) := by
    norm_num [powerLawCall, plCallGo, powerLawChunk, plLoop, npBroadcastMul,
      sliceAssign, setSlice, npModf, draws, List.enum, List.enumFrom,
      sampleCount_th_tq, List.range_succ, npTrunc, Int.tdiv]
  exact ⟨h1, C2_table_invariant.1 _ _ _ _ _ _ h1, h2,
    C2_table_invariant.2.1 _ _ _ _ _ _ _ h2,
    C2_table_invariant.2.2 ⟨2, 1, 1, 1, 1⟩ LSigma.noSigma (fun _ => 3/4)
      (fun _ => 0) [[⟨3/2, 1, 0⟩]]⟩

/-! ## C4 -/

/-- C4: one chunk of the thermal generation pass raises (a RuntimeError)
exactly when the cumulative number of photons sampled for the chunk
exceeds `photons_per_chunk`; and when a chunk raises, the whole call
returns that error — no retry, no recovery, no table. -/
theorem C4_capacity_error_iff (P : TParams) (m : Method) (prng : ℕ → ℚ)
    (off : ℕ) (bins : List TBin) :
    (isErr (thermalChunk P m prng off bins) = true ↔
      P.cap < ((thermalFreeCounts prng bins off).map List.sum).sum) ∧
    (∀ (e : String) (rest : List (List TBin)) (an : List ℕ) (ae : List ℚ),
      (bins.map (fun b => b.cells.length)).sum ≠ 0 →
      thermalChunk P m prng off bins = .error e →
      thermalCallGo P m prng (bins :: rest) off an ae = .error e) := by
  constructor
  · have hiff := thermalBinsPass_err_iff P m prng bins 0
      (List.replicate P.cap 0) off [] [] (Nat.zero_le _)
    rw [Nat.zero_add] at hiff
    rw [← hiff]
    unfold thermalChunk
    cases hbp : thermalBinsPass P m prng bins 0 0 (List.replicate P.cap 0)
        off [] [] with
    | error e => simp [isErr]
    | ok r =>
      obtain ⟨cs2, buf2, endE2, off2x, ws2⟩ := r
      simp [isErr]
  · intro e rest an ae hne hch
    simp only [thermalCallGo]
    rw [if_neg hne, hch]

/-- Witness for C4 at a chunk of two one-photon cells against capacity 1. -/
theorem C4_witness :
    (isErr (thermalChunk ⟨1, [0, 1, 2], [1/2, 3/2]⟩ Method.invertCdf
        (fun _ => 1/2) 0 [⟨[1, 0], [0, 1], [⟨1/2, 1⟩, ⟨1/2, 1⟩]⟩]) = true ↔
      (1 : ℕ) < ((thermalFreeCounts (fun _ => 1/2)
        [⟨[1, 0], [0, 1], [⟨1/2, 1⟩, ⟨1/2, 1⟩]⟩] 0).map List.sum).sum) ∧
    thermalCallGo ⟨1, [0, 1, 2], [1/2, 3/2]⟩ Method.invertCdf (fun _ => 1/2)
      ([⟨[1, 0], [0, 1], [⟨1/2, 1⟩, ⟨1/2, 1⟩]⟩] :: []) 0 [] [] =
      .error "RuntimeError: number of photons generated for this chunk exceeds photons_per_chunk" := by
  refine ⟨(C4_capacity_error_iff _ _ _ _ _).1,
    (C4_capacity_error_iff _ _ _ _ _).2 _ [] [] [] (by simp) ?_⟩
  norm_num [thermalChunk, thermalBinsPass, binStartState, thermalBinCounts,
    List.enum, List.enumFrom, sampleCount_one_half]

theorem thermalBinsPass_err_writes (P : TParams) (m : Method) (prng : ℕ → ℚ)
    (bins : List TBin) :
    ∀ endE buf off csAcc ws e ws2,
      thermalBinsPass P m prng bins endE endE buf off csAcc ws =
        .error (e, ws2) →
      endE ≤ P.cap →
      (∀ w ∈ ws, w.1 + w.2 ≤ P.cap) →
      ∀ w ∈ ws2, w.1 + w.2 ≤ P.cap := by
  induction bins with
  | nil =>
    intro endE buf off csAcc ws e ws2 h hE hW
    exact absurd h (by simp [thermalBinsPass])
  | cons b rest ih =>
    intro endE buf off csAcc ws e ws2 h hE hW
    simp only [thermalBinsPass] at h
    set cs := thermalBinCounts prng off b with hcs
    by_cases hcap : P.cap < endE + cs.sum
    · rw [if_pos hcap] at h
      simp only [Except.error.injEq, Prod.mk.injEq] at h
      obtain ⟨rfl, rfl⟩ := h
      exact hW
    · rw [if_neg hcap] at h
      have hzip : (List.zip cs (b.cells.map TCell.Z)).map Prod.fst = cs := by
        apply List.map_fst_zip
        rw [hcs, thermalBinCounts_length]
        simp
      obtain ⟨hei, hoff, hwrites, hlen⟩ := thermalCellPass_spec P m
        (0 :: cumsum b.mspec) b.mspec prng (List.zip cs (b.cells.map TCell.Z))
        (binStartState m b) endE (off + b.cells.length) buf []
      rw [hzip] at hwrites
      refine ih (endE + cs.sum) _ _ (csAcc ++ [cs]) _ e ws2 h (by omega) ?_
      intro w hw
      rcases List.mem_append.mp hw with hws | hnew
      · exact hW w hws
      · rcases hwrites w hnew with hfalse | hbd
        · simp at hfalse
        · omega

/-! ## C10 -/

/-- C10: every slice write `energies[ei:ei+cn]` the thermal pass performs
on a chunk — whether the chunk completes or is aborted by the capacity
RuntimeError — satisfies `ei + cn <= photons_per_chunk`, because the
per-bin check of the cumulative count `end_e` (lines 204-209) precedes
that bin's writes: an aborted run has performed exactly the writes of
the earlier, checked bins (the trace the error carries), and none of
the overflowing bin's. -/
theorem C10_writes_in_bounds (P : TParams) (m : Method) (prng : ℕ → ℚ)
    (off : ℕ) (bins : List TBin) :
    (∀ e ws,
      thermalBinsPass P m prng bins 0 0 (List.replicate P.cap 0) off [] [] =
        .error (e, ws) →
      ∀ w ∈ ws, w.1 + w.2 ≤ P.cap) ∧
    (∀ nop en off2 ws,
      thermalChunk P m prng off bins = .ok (nop, en, off2, ws) →
      ∀ w ∈ ws, w.1 + w.2 ≤ P.cap) :=
  ⟨fun e ws h =>
    thermalBinsPass_err_writes P m prng bins 0 (List.replicate P.cap 0) off
      [] [] e ws h (Nat.zero_le _) (by simp),
   fun nop en off2 ws h =>
    (thermalChunk_spec P m prng off bins nop en off2 ws h).2⟩

/-- Witness for C10: a chunk that completes with two writes, and a
capacity-1 chunk aborted at its second bin after performing the first
bin's write `(0, 1)`. -/
theorem C10_witness :
    thermalChunk ⟨10, [0, 1, 2], [1/2, 3/2]⟩ Method.invertCdf (fun _ => 1/2) 0
      [⟨[1, 0], [0, 1], [⟨1/2, 1⟩, ⟨1/2, 1⟩]⟩] =
      .ok ([1, 1], [1, 4/3], 4, [(0, 1), (1, 1)]) ∧
    (∀ w ∈ ([(0, 1), (1, 1)] : List (ℕ × ℕ)), w.1 + w.2 ≤ (10 : ℕ)) ∧
    thermalBinsPass ⟨1, [0, 1, 2], [1/2, 3/2]⟩ Method.invertCdf (fun _ => 1/2)
      [⟨[1, 0], [0, 1], [⟨1/2, 1⟩]⟩, ⟨[1, 0], [0, 1], [⟨1/2, 1⟩]⟩] 0 0
      (List.replicate 1 0) 0 [] [] =
      .error ("RuntimeError: number of photons generated for this chunk exceeds photons_per_chunk",
        [(0, 1)]) ∧
    (∀ w ∈ ([(0, 1)] : List (ℕ × ℕ)), w.1 + w.2 ≤ (1 : ℕ)) := by
  have he : thermalChunk ⟨10, [0, 1, 2], [1/2, 3/2]⟩ Method.invertCdf
      (fun _ => 1/2) 0 [⟨[1, 0], [0, 1], [⟨1/2, 1⟩, ⟨1/2, 1⟩]⟩] =
      .ok ([1, 1], [1, 4/3], 4, [(0, 1), (1, 1)]) := by
    norm_num [thermalChunk, thermalBinsPass, binStartState, thermalBinCounts,
      thermalCellPass, cdfStep, cumsum, lastD, sortQ, List.insertionSort,
      List.orderedInsert, npInterp, npInterp1, draws, setSlice, List.enum,
      List.enumFrom, sampleCount_one_half, List.range_succ]
  have herr : thermalBinsPass ⟨1, [0, 1, 2], [1/2, 3/2]⟩ Method.invertCdf
      (fun _ => 1/2) [⟨[1, 0], [0, 1], [⟨1/2, 1⟩]⟩, ⟨[1, 0], [0, 1], [⟨1/2, 1⟩]⟩]
      0 0 (List.replicate 1 0) 0 [] [] =
      .error ("RuntimeError: number of photons generated for this chunk exceeds photons_per_chunk",
        [(0, 1)]) := by
    norm_num [thermalBinsPass, binStartState, thermalBinCounts,
      thermalCellPass, cdfStep, cumsum, lastD, sortQ, List.insertionSort,
      List.orderedInsert, npInterp, npInterp1, draws, setSlice, List.enum,
      List.enumFrom, sampleCount_one_half, List.range_succ]
  exact ⟨he, (C10_writes_in_bounds _ _ _ _ _).2 _ _ _ _ he,
    herr, (C10_writes_in_bounds _ _ _ _ _).1 _ _ herr⟩

end PhotonSim
